import Mathlib

/-!
Verification of the funsor symbolic tensor-expression engine.

This file gives a shallow embedding of the core term model (`funsor/terms.py`),
the rewrite stages of the opt_einsum engine (`funsor/engine/opteinsum_engine.py`),
the deferred-call driver (`funsor/engine/engine.py`), the contraction algebra
(`funsor/contract.py`) and the cons-hashing construction cache
(`ConsHashedMeta` in `funsor/terms.py`), and proves or refutes the frozen
claims about them.

Modelling conventions:
* Python operator objects (callables such as `ops.add`) are compared only by
  identity in the source (`op is self.op`, dictionary keys); they are embedded
  as opaque numeric tags (`Op`).
* Python `frozenset`s of dimension names become `Finset String`.
* A Python function that can raise is embedded as an `Option`/`Except` value,
  `none`/`.error` marking the raised exception.
* Concrete numeric work delegated to the external torch backend (out of scope
  per spec section 1 and section 6) is marked by `none` where it would occur.
-/

namespace Funsors

/-- A shape entry: either a nonnegative integer cardinality or one of the
symbolic continuous domains in `DOMAINS = ('real', 'density')`
(`funsor/terms.py`). -/
inductive Size where
  | nat (k : Nat)
  | dom (s : String)
  deriving DecidableEq, Repr

/-- Operator objects (`ops.add`, `ops.mul`, ...) are opaque callables compared
by identity in the source; we embed them as numeric tags. -/
abbrev Op := Nat

def addOp : Op := 0

def mulOp : Op := 1

def logaddexpOp : Op := 2

def minOp : Op := 3

def maxOp : Op := 4

def negOp : Op := 5

/-- Modelled from the spec: `ops.REDUCE_OP_TO_TORCH` lives in `funsor/ops.py`,
which is not among the provided sources.  Spec section 6 requires the backend
to supply axis-indexed reductions for sum, log-sum-exp, min and max, so those
operator tags are the torch-reducible ones. -/
def reduceOpToTorch (op : Op) : Bool :=
  op == addOp || op == logaddexpOp || op == minOp || op == maxOp

/-- A backend-held dense tensor: a shape and row-major flat data.  Only the
bookkeeping (shape, element count) is modelled; numeric contents are only
read by scalar coercion (`bool`, `item`). -/
structure TorchT where
  shape : List Nat
  data : List Int
  deriving DecidableEq, Repr

/-- The term variants of `funsor/terms.py`.  `Finitary` is referenced
throughout the engine but its class body is not among the provided sources;
it is modelled from the spec as the n-ary pointwise generalization of
`Binary` (spec sections 3 and 4.4), with schema the left-to-right union of
the operand schemas. -/
inductive Funsor where
  | Variable (name : String) (size : Size)
  | Number (data : Int)
  | Tensor (dims : List String) (data : TorchT)
  | Unary (op : Op) (arg : Funsor)
  | Binary (op : Op) (lhs : Funsor) (rhs : Funsor)
  | Finitary (op : Op) (operands : List Funsor)
  | Reduction (op : Op) (arg : Funsor) (reduceDims : Finset String)
  | Substitution (arg : Funsor) (subs : List (String × Funsor))
  | Align (arg : Funsor) (dims : List String) (shape : List Size)

/-- An ordered dims-to-shape mapping (a Python `OrderedDict`). -/
abbrev Schema := List (String × Size)

/-- First value bound to a key, mirroring Python dict lookup. -/
def lookupS (s : Schema) (k : String) : Option Size :=
  (s.find? (fun kv => kv.1 == k)).map (fun kv => kv.2)

/-- Python `OrderedDict.update`: existing keys keep their position and receive the
new value; keys new to `s1` are appended in `s2` order. -/
def updateSchema (s1 s2 : Schema) : Schema :=
  s1.map (fun kv => (kv.1, (lookupS s2 kv.1).getD kv.2)) ++
    s2.filter (fun kv => lookupS s1 kv.1 == none)

mutual

/-- The `schema` attribute computed by each constructor in `funsor/terms.py`:
`Variable` contributes its single axis, `Number` is zero-dimensional,
`Tensor` zips its dims with the data's shape, `Unary` inherits its argument's
schema, `Binary` (and, modelled from the spec, `Finitary`) unions operand
schemas left to right, `Reduction` removes the reduced dims, `Substitution`
deletes the bound dims then unions in each replacement's schema, and `Align`
stores the requested dims/shape. -/
def schema : Funsor → Schema
  | .Variable n s => [(n, s)]
  | .Number _ => []
  | .Tensor ds t => ds.zip (t.shape.map Size.nat)
  | .Unary _ a => schema a
  | .Binary _ l r => updateSchema (schema l) (schema r)
  | .Finitary _ ops => schemaMany ops []
  | .Reduction _ a rd => (schema a).filter (fun kv => kv.1 ∉ rd)
  | .Substitution a subs =>
      schemaSubs subs
        ((schema a).filter (fun kv => !(subs.any (fun sv => sv.1 == kv.1))))
  | .Align _ ds sh => ds.zip sh

/-- Left fold of `updateSchema` over a list of operands. -/
def schemaMany : List Funsor → Schema → Schema
  | [], acc => acc
  | o :: os, acc => schemaMany os (updateSchema acc (schema o))

/-- Left fold of `updateSchema` over substitution replacement values. -/
def schemaSubs : List (String × Funsor) → Schema → Schema
  | [], acc => acc
  | sv :: svs, acc => schemaSubs svs (updateSchema acc (schema sv.2))

end

/-- The ordered dimension names of a term (`self.dims`). -/
def dims (x : Funsor) : List String := (schema x).map Prod.fst

/-- The shape of a term (`self.shape`), parallel to `dims`. -/
def shape (x : Funsor) : List Size := (schema x).map Prod.snd

/-- The dimension names as a set (dimension order is storage order only; set
equality is what the claims quantify over). -/
def dimsSet (x : Funsor) : Finset String := (dims x).toFinset

/-! ## The `reduce` method (`Funsor.reduce`, `Reduction.reduce`, `Align.reduce`,
`Tensor.reduce` in `funsor/terms.py`) -/

/-- The dims actually reduced: `frozenset(dims).intersection(self.dims)`, or
all of `self.dims` when the argument is `None`. -/
def interDims (x : Funsor) : Option (Finset String) → Finset String
  | none => dimsSet x
  | some s => s ∩ dimsSet x

/-- The base-class `Funsor.reduce`: intersect the requested dims with
`self.dims`; if nothing is left return `self`, otherwise build a
`Reduction` node. -/
def defaultReduce (op : Op) (x : Funsor) (ds : Option (Finset String)) :
    Option Funsor :=
  if interDims x ds = ∅ then some x else some (.Reduction op x (interDims x ds))

/-- Dynamic dispatch of `.reduce(op, dims)`:
* `Align.reduce` delegates to its argument;
* `Reduction.reduce` with the same `op` eagerly fuses into one `Reduction`;
* `Tensor.reduce` with a torch-reducible op either returns `self` (empty
  intersection) or hands the data to the numeric backend — the backend is
  outside the modelled symbolic core (spec sections 1 and 6), marked `none`;
* every other case falls through to the base-class `Funsor.reduce`. -/
def reduceF : Op → Funsor → Option (Finset String) → Option Funsor
  | op, .Align a _ _, ds => reduceF op a ds
  | op, .Reduction op2 a rd, ds =>
      if op = op2 then
        some (.Reduction op a (rd ∪ interDims (.Reduction op2 a rd) ds))
      else defaultReduce op (.Reduction op2 a rd) ds
  | op, .Tensor td t, ds =>
      if reduceOpToTorch op then
        if interDims (.Tensor td t) ds = ∅ then some (.Tensor td t) else none
      else defaultReduce op (.Tensor td t) ds
  | op, x, ds => defaultReduce op x ds

/-- Whether a term is a `Reduction` whose argument is a `Reduction` over the
same operator (the shape the fusion law rules out). -/
def sameOpNested : Funsor → Bool
  | .Reduction o (.Reduction o2 _ _) _ => o == o2
  | _ => false

/-- Unwrap `Align` views (whose `reduce` delegates to the argument). -/
def stripAlign : Funsor → Funsor
  | .Align a _ _ => stripAlign a
  | x => x

/-- Whether the head constructor is `Align`. -/
def isAlign : Funsor → Bool
  | .Align _ _ _ => true
  | _ => false

/-- Whether `a` is a `Reduction` over exactly the operator `o`. -/
def nestedWithOp (a : Funsor) (o : Op) : Bool :=
  match a with
  | .Reduction o2 _ _ => o == o2
  | _ => false

/-! ## C10: reduce over dims disjoint from `x.dims` -/

/-- An `Align` view hiding the dimension of its argument: constructible since
`Align.__init__` only checks consistency of the dims it is given. -/
def alignEx : Funsor := .Align (.Variable ("a") (.nat 2)) ["b"] [.nat 2]

/-! ## C4: `ConsHashedMeta.__call__` interning (`funsor/terms.py`) -/

/-- A canonical construction key `(cls, args)`: the class tag together with
the canonicalized positional arguments (`ConsHashedMeta.__call__` merges
kwargs into positional order before the lookup).  Keys are fully hashable;
nested funsors participate by their canonical identity. -/
structure ConsKey where
  cls : Nat
  args : List Nat
  deriving DecidableEq

/-- The process-wide interning cache `ConsHashedMeta._cache` plus the
allocator of fresh instance identities.  The source uses a
`WeakValueDictionary`; reclamation of entries whose instance is no longer
referenced is garbage-collector behaviour outside the embedding, so the
cache is modelled as non-evicting while clients hold their references. -/
structure ConsState where
  cache : List (ConsKey × Nat)
  next : Nat

/-- Dict lookup in the interning cache. -/
def lookupC (c : List (ConsKey × Nat)) (k : ConsKey) : Option Nat :=
  (c.find? (fun e => e.1 == k)).map (fun e => e.2)

/-- Call protocol `ConsHashedMeta.__call__`: on a cache hit return the memoized instance,
otherwise create a fresh instance, memoize it under the key and return it. -/
def consCall (k : ConsKey) (s : ConsState) : Nat × ConsState :=
  match lookupC s.cache k with
  | some i => (i, s)
  | none => (s.next, ⟨s.cache ++ [(k, s.next)], s.next + 1⟩)

/-- A sequence of constructions from independent call sites. -/
def runCalls : List ConsKey → ConsState → ConsState
  | [], s => s
  | k :: ks, s => runCalls ks (consCall k s).2

/-! ## C9: scalar coercion (`Funsor.__bool__`, `Funsor.item`,
`Tensor.__bool__`, `Tensor.item`, `Number.__bool__` in `funsor/terms.py`) -/

/-- The Python exception kinds raised by scalar coercion. -/
inductive PyErr where
  | valueError
  | notImplementedError
  | runtimeError
  deriving DecidableEq

/-- Element count of a backend tensor. -/
def torchNumel (t : TorchT) : Nat := t.data.length

/-- Coercion of a torch tensor to a Python bool (external torch contract):
it succeeds exactly on one-element tensors, whatever their dimensionality,
returning whether the element is nonzero, and raises `RuntimeError`
otherwise. -/
def torchBool (t : TorchT) : Except PyErr Bool :=
  match t.data with
  | [v] => .ok (v != 0)
  | _ => .error .runtimeError

/-- Scalar read `torch.Tensor.item()` (external torch contract): succeeds exactly on
one-element tensors. -/
def torchItem (t : TorchT) : Except PyErr Int :=
  match t.data with
  | [v] => .ok v
  | _ => .error .runtimeError

/-- Coercion `bool(x)` dispatch: `Number.__bool__` reads the scalar;
`Tensor.__bool__` is `bool(self.data)` delegated to torch; the base
`Funsor.__bool__` raises `ValueError` when `self.shape` is non-empty, else
`NotImplementedError`. -/
def funsorBool : Funsor → Except PyErr Bool
  | .Number z => .ok (z != 0)
  | .Tensor _ t => torchBool t
  | x => if shape x ≠ [] then .error .valueError else .error .notImplementedError

/-- Scalar read `x.item()` dispatch, parallel to `funsorBool`. -/
def funsorItem : Funsor → Except PyErr Int
  | .Number z => .ok z
  | .Tensor _ t => torchItem t
  | x => if shape x ≠ [] then .error .valueError else .error .notImplementedError

/-- Whether an `Except` result is an error. -/
def isErr {α : Type} (e : Except PyErr α) : Bool :=
  match e with
  | .error _ => true
  | .ok _ => false

/-- Whether the head constructor is `Tensor`. -/
def isTensorF : Funsor → Bool
  | .Tensor _ _ => true
  | _ => false

/-- A `Tensor` with non-empty shape `(1,)` but a single element. -/
def oneElemTensor : Funsor := .Tensor ["i"] ⟨[1], [5]⟩

/-! ## C5: `eval` under the trampoline (`funsor/engine/engine.py`)

`eval`'s branches evaluate their subterms by *direct recursive calls*
(`eval(x.arg)`, `eval(x.lhs)`, ...) before scheduling the tail constructor
call, so each nesting level occupies a native stack frame.  Moreover the
`Unary` branch reads `x.v`, but `Unary` stores its argument as `.arg`
(`funsor/terms.py`), so every `Unary` node raises `AttributeError`
immediately; `Align` has no branch at all and falls through to
`raise NotImplementedError`. -/

mutual

/-- Whether `eval` completes on a term (no `AttributeError` from the `Unary`
branch, no fall-through `NotImplementedError`). -/
def evalOk : Funsor → Bool
  | .Tensor _ _ => true
  | .Number _ => true
  | .Variable _ _ => true
  | .Unary _ _ => false
  | .Binary _ l r => evalOk l && evalOk r
  | .Finitary _ os => evalOkList os
  | .Reduction _ a _ => evalOk a
  | .Substitution a subs => evalOk a && evalOkSubs subs
  | .Align _ _ _ => false

/-- Conjunction of `evalOk` over a list of operands. -/
def evalOkList : List Funsor → Bool
  | [] => true
  | o :: os => evalOk o && evalOkList os

/-- Conjunction of `evalOk` over substitution bindings. -/
def evalOkSubs : List (String × Funsor) → Bool
  | [] => true
  | sv :: svs => evalOk sv.2 && evalOkSubs svs

end

mutual

/-- Native call-stack depth used by `eval` on a term: one frame for the
current invocation plus the deepest frame among the recursive subterm
evaluations performed while it is live (the scheduled tail constructor call
itself runs in the driver loop at constant extra depth). -/
def evalDepth : Funsor → Nat
  | .Tensor _ _ => 1
  | .Number _ => 1
  | .Variable _ _ => 1
  | .Unary _ _ => 1
  | .Binary _ l r => 1 + max (evalDepth l) (evalDepth r)
  | .Finitary _ os => 1 + evalDepthList os
  | .Reduction _ a _ => 1 + evalDepth a
  | .Substitution a subs => 1 + max (evalDepth a) (evalDepthSubs subs)
  | .Align _ _ _ => 1

/-- Maximum `evalDepth` over a list of operands. -/
def evalDepthList : List Funsor → Nat
  | [] => 0
  | o :: os => max (evalDepth o) (evalDepthList os)

/-- Maximum `evalDepth` over substitution bindings. -/
def evalDepthSubs : List (String × Funsor) → Nat
  | [] => 0
  | sv :: svs => max (evalDepth sv.2) (evalDepthSubs svs)

end

/-- A chain of `n` nested `Substitution` wraps around a `Variable`, the
shape of term the driver stack-safety claim exercises. -/
def subChain : Nat → Funsor
  | 0 => .Variable ("i") (.nat 2)
  | n + 1 => .Substitution (subChain n) [("i", .Variable ("i") (.nat 2))]

/-! ## C8: `trampoline.__exit__` (`funsor/engine/engine.py`) -/

/-- A scheduled step's callable, embedded as a small code type: the source
schedules arbitrary Python callables, observed here only through
application, which either returns a value or raises. -/
inductive FnCode where
  | const (v : Nat)
  | fail
  deriving DecidableEq

/-- Apply a scheduled callable to its dequeued arguments. -/
def FnCode.apply : FnCode → List Nat → List (String × Nat) → Option Nat
  | .const v, _, _ => some v
  | .fail, _, _ => none

/-- The driver state: `self._schedule` entries `(fn, nargs, nkwargs)` and the
two parallel queues `self._args_queue`, `self._kwargs_queue`. -/
structure TState where
  schedule : List (FnCode × Nat × Nat)
  argsQueue : List Nat
  kwargsQueue : List (String × Nat)
  deriving DecidableEq

/-- The drain loop of `trampoline.__exit__` on the non-exceptional path: pop
the oldest step, dequeue its declared argument counts FIFO, invoke it, push
the result onto the positional queue; after the loop pop the single result
and assert both queues are empty.  Returns the state left behind together
with `some` result, or with `none` when an exception escapes mid-drain (a
step raising, queue underflow, or the final assert failing) — in which case
the remaining entries are left in place. -/
def drain : List (FnCode × Nat × Nat) → List Nat → List (String × Nat) →
    TState × Option Nat
  | [], args, kwargs =>
      match args with
      | [] => (⟨[], [], kwargs⟩, none)
      | v :: rest =>
          if rest = [] ∧ kwargs = [] then (⟨[], [], []⟩, some v)
          else (⟨[], rest, kwargs⟩, none)
  | (fn, na, nk) :: rest, args, kwargs =>
      if na ≤ args.length then
        if nk ≤ kwargs.length then
          match fn.apply (args.take na) (kwargs.take nk) with
          | some v => drain rest (args.drop na ++ [v]) (kwargs.drop nk)
          | none => (⟨rest, args.drop na, kwargs.drop nk⟩, none)
        else (⟨rest, args.drop na, []⟩, none)
      else (⟨rest, [], kwargs⟩, none)

/-- Exit handler `trampoline.__exit__`: when the managed body raised (`exc_type` not
`None`), discard the schedule and both queues and propagate; otherwise run
the drain loop.  (`Handler.__exit__` is in `funsor/handlers.py`, absent from
the sources; modelled from the spec as propagating, not suppressing, the
exception.) -/
def trampolineExit (excInBody : Bool) (st : TState) : TState × Option Nat :=
  if excInBody then (⟨[], [], []⟩, none)
  else drain st.schedule st.argsQueue st.kwargsQueue

/-- Two scheduled steps, the first of which raises. -/
def stuckState : TState := ⟨[(.fail, 0, 0), (.const 7, 0, 0)], [], []⟩

/-! ## C7: the contraction algebra (`funsor/contract.py`) -/

/-- The `dim` argument of `Contract.__init__`.  The constructor was written
for a single dim name, but the registered handlers pass the whole frozenset
of dims to eliminate; Python's dynamic typing lets both reach the
constructor. -/
inductive DimArg where
  | one (d : String)
  | many (ds : Finset String)

/-- Python `dim in self.dims` membership: tuple membership compares with
`==`, and a frozenset never equals a string, so only the single-name form
can ever be a member of a dims tuple. -/
def dimArgMem (a : DimArg) (ds : List String) : Bool :=
  match a with
  | .one d => ds.contains d
  | .many _ => false

/-- A lazy `Contract` node (`Contract` extends `Funsor` in
`funsor/contract.py`; it is carried here as a standalone record since no
modelled dispatcher consumes it). -/
structure Contract where
  sumOp : Op
  prodOp : Op
  lhs : Funsor
  rhs : Funsor
  dim : DimArg
  schemaOut : Schema

/-- Constructor `Contract.__init__`: asserts `dim in lhs.dims and dim in rhs.dims`, then
deletes `dim` from the union of the operand schemas (`del schema[dim]`).
`none` models the `AssertionError` (and, were asserts disabled, the
`KeyError` from deleting a frozenset key from a string-keyed dict). -/
def contractInit (sumOp prodOp : Op) (lhs rhs : Funsor) (dim : DimArg) :
    Option Contract :=
  if dimArgMem dim (dims lhs) && dimArgMem dim (dims rhs) then
    match dim with
    | .one d =>
        some ⟨sumOp, prodOp, lhs, rhs, .one d,
          (updateSchema (schema lhs) (schema rhs)).filter
            (fun kv => kv.1 ≠ d)⟩
    | .many _ => none
  else none

/-- The generic `(ops.add, ops.mul)` handler `_sumproduct`: builds
`Contract(ops.add, ops.mul, lhs, rhs, reduce_dims)`, passing the frozenset
where `Contract.__init__` expects a single dim. -/
def sumproductGeneric (lhs rhs : Funsor) (reduceDims : Finset String) :
    Option Contract :=
  contractInit addOp mulOp lhs rhs (.many reduceDims)

/-- The generic `(ops.logaddexp, ops.add)` handler `_logsumproductexp`,
identical in shape to `_sumproduct`. -/
def logsumproductexpGeneric (lhs rhs : Funsor) (reduceDims : Finset String) :
    Option Contract :=
  contractInit logaddexpOp addOp lhs rhs (.many reduceDims)

/-! ## C6: the canonicalize stage `deoptimize_finitary`
(`funsor/engine/opteinsum_engine.py`) -/

/-- Ground kinds `Deoptimize.GROUND_TERMS = (Distribution, Substitution, Number, Tensor)`.
`Distribution` is a domain extension kind outside the modelled core term set
(spec section 1), so the modelled ground kinds are `Substitution`, `Number`
and `Tensor`. -/
def isGround : Funsor → Bool
  | .Substitution _ _ => true
  | .Number _ => true
  | .Tensor _ _ => true
  | _ => false

/-- Whether the head constructor is `Finitary`. -/
def isFinitaryF : Funsor → Bool
  | .Finitary _ _ => true
  | _ => false

/-- Whether the head constructor is `Reduction`. -/
def isReductionF : Funsor → Bool
  | .Reduction _ _ _ => true
  | _ => false

/-- Case-1 flattening: a nested same-operator `Finitary` contributes its
operands, anything else contributes itself. -/
def flattenOperand (op : Op) (t : Funsor) : List Funsor :=
  match t with
  | .Finitary op2 os2 => if op2 = op then os2 else [t]
  | _ => [t]

/-- The operator of a `Reduction` operand (`operands[0].op`). -/
def reductionOp : Funsor → Op
  | .Reduction o _ _ => o
  | _ => 0

/-- The argument of a `Reduction` operand (`term.arg`). -/
def reductionArg : Funsor → Funsor
  | .Reduction _ a _ => a
  | t => t

/-- The reduced dims of a `Reduction` operand (`term.reduce_dims`). -/
def reductionDims : Funsor → Finset String
  | .Reduction _ _ rd => rd
  | _ => ∅

/-- The error message of the mixed-case fence. -/
def mixedCaseMsg : String := "NotImplementedError: TODO(eb8680) handle mixed case"

/-- Handler `deoptimize_finitary`: case 1 flattens when all operands are
`Finitary`/ground; case 2 merges when all operands are `Reduction`; case 3
reflects when no operand is `Reduction` or `Finitary`; anything else raises
`NotImplementedError`.  (The set-vs-frozenset distinction of the Python
`reduce_dims` value in case 2 is not modelled — both embed as `Finset`.) -/
def deoptimizeFinitary (op : Op) (operands : List Funsor) :
    Except String Funsor :=
  if operands.all (fun t => isFinitaryF t || isGround t) then
    .ok (.Finitary op ((operands.map (flattenOperand op)).flatten))
  else if operands.all isReductionF then
    match operands with
    | [] => .error ("unreachable")
    | t0 :: _ =>
        .ok (.Reduction (reductionOp t0)
          (.Finitary op (operands.map reductionArg))
          (operands.foldl (fun s t => s ∪ reductionDims t) ∅))
  else if operands.all (fun t => !(isReductionF t || isFinitaryF t)) then
    .ok (.Finitary op operands)
  else
    .error mixedCaseMsg

/-! ## C1, C2: the optimizer stage `optimize_reduction`
(`funsor/engine/opteinsum_engine.py`)

The contraction path itself comes from the external
`opt_einsum.paths.greedy` and is taken as a parameter: the greedy optimizer
emits, for a list of `n ≥ 2` operands, `n - 1` pairs `(a, b)` with
`a < b < current length`, shrinking the operand list by one per step
(`validPath` below). -/

/-- A key of the `collections.Counter` used by `optimize_reduction`.  The
initializing `update({d: 1 for d in input})` receives a mapping and so
counts dim-name keys; the mid-path `subtract((d, 1) for d in ...)` calls
pass a *generator of `(d, 1)` tuples*, which `Counter.subtract` treats as an
iterable of elements, so those decrements land on tuple keys. -/
inductive CKey where
  | str (d : String)
  | pair (d : String) (n : Nat)
  deriving DecidableEq

/-- A `collections.Counter`, modelled by its lookup function (missing keys
read as 0).  The source observes the counter only through key lookups
(`reduce_dim_counter[d] == 0`) and through membership of its positive-count
keys in `reduce_dims` (the `final_reduce_dims` comprehension), both captured
exactly by the lookup function. -/
abbrev Counter := CKey → Int

/-- Read a key's count (0 when absent). -/
def cGet (c : Counter) (k : CKey) : Int := c k

/-- Increment `counter[k] += n`. -/
def cAdd (c : Counter) (k : CKey) (n : Int) : Counter :=
  fun k2 => if k2 = k then c k + n else c k2

/-- One `update({d: 1 for d in input})` over an operand's dim set. -/
def updOne (c : Counter) (o : Funsor) : Counter :=
  ((dims o).dedup).foldl (fun c d => cAdd c (.str d) 1) c

/-- State of `reduce_dim_counter` right after initialization: one `update` per
operand. -/
def initCounter (operands : List Funsor) : Counter :=
  operands.foldl updOne (fun _ => 0)

/-- Call `reduce_dim_counter.subtract((d, 1) for d in s)`: each decrement lands
on the tuple key `(d, 1)`, leaving every dim-name key untouched. -/
def subTuples (c : Counter) (ds : List String) : Counter :=
  ds.foldl (fun c d => cAdd c (.pair d 1) (-1)) c

/-- The result of one path step.  Each operand is carried together with the
set of original operand indices already folded into it — bookkeeping only,
used to state the dimension-retirement claim. -/
structure StepOut where
  ops : List (Funsor × Finset Nat)
  cnt : Counter
  pe : Funsor × Finset Nat
  rd : Finset String

/-- One iteration of the path loop of `optimize_reduction`:
`ta = operands[a]`, `tb = operands.pop(b)`,
`path_end_finitary = Finitary(finitary_op, (ta, tb))`, subtract the
`(d, 1)` tuples for both operands' reduced dims, take as the step's reduced
set the dims of the pair whose counter reads exactly 0, wrap in a
`Reduction` and store it at index `a`.  `none` models the `IndexError` on an
out-of-range index. -/
def pathStep (reduceOp finitaryOp : Op) (reduceDims : Finset String)
    (ops : List (Funsor × Finset Nat)) (cnt : Counter) (a b : Nat) :
    Option StepOut :=
  match ops[a]?, ops[b]? with
  | some ta, some tb =>
      let ops1 := ops.eraseIdx b
      let cnt1 := subTuples cnt
        ((dims ta.1).dedup.filter (fun d => d ∈ reduceDims))
      let cnt2 := subTuples cnt1
        ((dims tb.1).dedup.filter (fun d => d ∈ reduceDims))
      let stepRd := (reduceDims ∩ (dimsSet ta.1 ∪ dimsSet tb.1)).filter
        (fun d => cGet cnt2 (.str d) = 0)
      let pe : Funsor × Finset Nat :=
        (.Reduction reduceOp (.Finitary finitaryOp [ta.1, tb.1]) stepRd,
          ta.2 ∪ tb.2)
      if a < ops1.length then some ⟨ops1.set a pe, cnt2, pe, stepRd⟩ else none
  | _, _ => none

/-- The result of running the whole path: final operand list, final counter,
the last `path_end`, and the trace of per-step (reduced set, folded original
indices). -/
structure RunOut where
  ops : List (Funsor × Finset Nat)
  cnt : Counter
  pe : Funsor × Finset Nat
  trace : List (Finset String × Finset Nat)

/-- The `for (a, b) in path` loop.  An empty path leaves `path_end` unbound
(`NameError` in the source), modelled as `none`. -/
def runPath (reduceOp finitaryOp : Op) (reduceDims : Finset String) :
    List (Nat × Nat) → List (Funsor × Finset Nat) → Counter → Option RunOut
  | [], _, _ => none
  | (a, b) :: rest, ops, cnt =>
      match pathStep reduceOp finitaryOp reduceDims ops cnt a b with
      | none => none
      | some st =>
          match rest with
          | [] => some ⟨st.ops, st.cnt, st.pe, [(st.rd, st.pe.2)]⟩
          | _ :: _ =>
              match runPath reduceOp finitaryOp reduceDims rest st.ops st.cnt
                  with
              | none => none
              | some r =>
                  some ⟨r.ops, r.cnt, r.pe, (st.rd, st.pe.2) :: r.trace⟩

/-- Annotate each operand with its own original index. -/
def annotate (operands : List Funsor) : List (Funsor × Finset Nat) :=
  operands.enum.map (fun p => (p.2, ({p.1} : Finset Nat)))

/-- Handler `optimize_reduction`: a non-`Finitary` argument reflects; otherwise run
the path loop, then reduce the dims whose counter stayed positive in one
trailing `Reduction` (`if final_reduce_dims:`). -/
def optimizeReduction (op : Op) (arg : Funsor) (reduceDims : Finset String)
    (path : List (Nat × Nat)) : Option Funsor :=
  match arg with
  | .Finitary fop operands =>
      match runPath op fop reduceDims path (annotate operands)
          (initCounter operands) with
      | none => none
      | some r =>
          let finalRd := reduceDims.filter (fun d => 0 < cGet r.cnt (.str d))
          some (if finalRd = ∅ then r.pe.1 else .Reduction op r.pe.1 finalRd)
  | _ => some (.Reduction op arg reduceDims)

/-- Exposes the optimizer loop's trace (per pairwise step: the reduced set
and the original operand indices folded so far), starting from the same
state `optimize_reduction` builds. -/
def optimizePathTrace (reduceOp finitaryOp : Op) (reduceDims : Finset String)
    (operands : List Funsor) (path : List (Nat × Nat)) :
    Option (List (Finset String × Finset Nat)) :=
  (runPath reduceOp finitaryOp reduceDims path (annotate operands)
    (initCounter operands)).map (fun r => r.trace)

/-- Shape of the paths the greedy optimizer emits: each step names two
distinct live indices `a < b < current length`. -/
def validPath : Nat → List (Nat × Nat) → Bool
  | _, [] => true
  | n, (a, b) :: rest =>
      decide (a < b) && decide (b < n) && validPath (n - 1) rest

/-- Union of the dim sets of annotated operands. -/
def aUnion : List (Funsor × Finset Nat) → Finset String
  | [] => ∅
  | o :: os => dimsSet o.1 ∪ aUnion os

/-- Union of the dim sets of a list of operands. -/
def dimsUnion : List Funsor → Finset String
  | [] => ∅
  | o :: os => dimsSet o ∪ dimsUnion os

/-- How many operands mention dim `d`. -/
def occCount (operands : List Funsor) (d : String) : Nat :=
  operands.countP (fun o => decide (d ∈ dimsSet o))

/-- Two-operand example for the C1 witness. -/
def w1ops : List Funsor := [.Variable ("i") (.nat 2), .Variable ("j") (.nat 2)]

/-- The dims of `D` all of whose mentioning operands have been folded into
the group `grp` of original indices. -/
def fullyFolded (operands : List Funsor) (D : Finset String)
    (grp : Finset Nat) : Finset String :=
  D.filter (fun d => ∀ j ∈ Finset.range operands.length,
    d ∈ dimsSet (operands.getD j (.Number 0)) → j ∈ grp)

/-- Two operands sharing the eliminated dim, for the C2 witness. -/
def w2ops : List Funsor := [.Variable ("i") (.nat 2), .Variable ("i") (.nat 2)]

/-! ## Theorems -/

@[simp] theorem dims_variable (n : String) (s : Size) :
    dims (.Variable n s) = [n] := rfl

@[simp] theorem dims_number (z : Int) : dims (.Number z) = [] := rfl

@[simp] theorem dims_unary (op : Op) (a : Funsor) :
    dims (.Unary op a) = dims a := by
  simp [dims, schema]

@[simp] theorem dims_align (a : Funsor) (ds : List String) (sh : List Size) :
    schema (.Align a ds sh) = ds.zip sh := rfl

theorem schema_reduction (op : Op) (a : Funsor) (rd : Finset String) :
    schema (.Reduction op a rd) = (schema a).filter (fun kv => kv.1 ∉ rd) := by
  rw [schema]

theorem schema_finitary (op : Op) (ops : List Funsor) :
    schema (.Finitary op ops) = schemaMany ops [] := by
  rw [schema]

@[simp] theorem interDims_some (x : Funsor) (s : Finset String) :
    interDims x (some s) = s ∩ dimsSet x := rfl

theorem dimsSet_reduction (op : Op) (a : Funsor) (rd : Finset String) :
    dimsSet (.Reduction op a rd) = dimsSet a \ rd := by
  ext d
  simp only [dimsSet, dims, schema_reduction, List.mem_toFinset, List.mem_map,
    List.mem_filter, Finset.mem_sdiff, decide_eq_true_eq]
  constructor
  · rintro ⟨kv, ⟨hkv, hnot⟩, rfl⟩
    exact ⟨⟨kv, hkv, rfl⟩, hnot⟩
  · rintro ⟨⟨kv, hkv, rfl⟩, hnot⟩
    exact ⟨kv, ⟨hkv, hnot⟩, rfl⟩

theorem fuse_inter (A B dx : Finset String) :
    (A ∩ dx) ∪ B ∩ (dx \ (A ∩ dx)) = (A ∪ B) ∩ dx := by
  ext d
  simp only [Finset.mem_union, Finset.mem_inter, Finset.mem_sdiff]
  tauto

theorem fuse_inter_red (R A B da : Finset String) :
    (R ∪ A ∩ (da \ R)) ∪ B ∩ (da \ (R ∪ A ∩ (da \ R))) =
      R ∪ (A ∪ B) ∩ (da \ R) := by
  ext d
  simp only [Finset.mem_union, Finset.mem_inter, Finset.mem_sdiff]
  tauto

theorem reduceF_same_op (op : Op) (a : Funsor) (rd B : Finset String) :
    reduceF op (.Reduction op a rd) (some B) =
      some (.Reduction op a (rd ∪ B ∩ (dimsSet a \ rd))) := by
  simp [reduceF, dimsSet_reduction]

theorem inter_union_left_ne (A B dx : Finset String) (hA : A ∩ dx ≠ ∅) :
    (A ∪ B) ∩ dx ≠ ∅ := by
  intro h
  apply hA
  have hsub : A ∩ dx ⊆ (A ∪ B) ∩ dx :=
    Finset.inter_subset_inter Finset.subset_union_left (Finset.Subset.refl _)
  rw [h] at hsub
  exact Finset.subset_empty.mp hsub

/-- Any constructor whose `reduce` is the base-class one satisfies the fusion
law: the second `reduce` sees either the unchanged term or a fresh
`Reduction` node over the same op, which fuses. -/
theorem default_case_chain (op : Op) (x : Funsor) (A B : Finset String)
    (h1 : reduceF op x (some A) = defaultReduce op x (some A))
    (h2 : reduceF op x (some B) = defaultReduce op x (some B)) :
    (reduceF op x (some A)).bind (fun y => reduceF op y (some B)) =
      defaultReduce op x (some (A ∪ B)) := by
  rw [h1]
  by_cases hA : A ∩ dimsSet x = ∅
  · have hAB : (A ∪ B) ∩ dimsSet x = B ∩ dimsSet x := by
      rw [Finset.union_inter_distrib_right, hA, Finset.empty_union]
    unfold defaultReduce
    rw [interDims_some, interDims_some, hA, hAB, if_pos rfl]
    show reduceF op x (some B) = _
    rw [h2]
    unfold defaultReduce
    rw [interDims_some]
  · have hAB : (A ∪ B) ∩ dimsSet x ≠ ∅ := inter_union_left_ne A B _ hA
    unfold defaultReduce
    rw [interDims_some, interDims_some, if_neg hA, if_neg hAB]
    show reduceF op (.Reduction op x (A ∩ dimsSet x)) (some B) = _
    rw [reduceF_same_op, fuse_inter]

theorem reduceF_chain : ∀ (op : Op) (x : Funsor) (A B : Finset String),
    (reduceF op x (some A)).bind (fun y => reduceF op y (some B)) =
      reduceF op x (some (A ∪ B))
  | op, .Align a d s, A, B => by
      have ih := reduceF_chain op a A B
      simpa only [reduceF] using ih
  | op, .Reduction op2 a rd, A, B => by
      by_cases hop : op = op2
      · subst hop
        rw [reduceF_same_op op a rd A, reduceF_same_op op a rd (A ∪ B)]
        show reduceF op (.Reduction op a (rd ∪ A ∩ (dimsSet a \ rd)))
            (some B) = _
        rw [reduceF_same_op, fuse_inter_red]
      · have h1 : ∀ s, reduceF op (.Reduction op2 a rd) (some s) =
            defaultReduce op (.Reduction op2 a rd) (some s) := by
          intro s
          simp [reduceF, hop]
        exact (default_case_chain op _ A B (h1 A) (h1 B)).trans
          (h1 (A ∪ B)).symm
  | op, .Tensor td t, A, B => by
      by_cases ht : reduceOpToTorch op
      · have e1 : ∀ s, reduceF op (.Tensor td t) (some s) =
            (if s ∩ dimsSet (.Tensor td t) = ∅ then some (.Tensor td t)
              else none) := by
          intro s
          simp [reduceF, ht]
        rw [e1 A, e1 (A ∪ B)]
        by_cases hA : A ∩ dimsSet (.Tensor td t) = ∅
        · have hAB : (A ∪ B) ∩ dimsSet (.Tensor td t) =
              B ∩ dimsSet (.Tensor td t) := by
            rw [Finset.union_inter_distrib_right, hA, Finset.empty_union]
          rw [if_pos hA, hAB]
          show reduceF op (.Tensor td t) (some B) = _
          rw [e1 B]
        · have hAB := inter_union_left_ne A B (dimsSet (.Tensor td t)) hA
          rw [if_neg hA, if_neg hAB]
          rfl
      · have h1 : ∀ s, reduceF op (.Tensor td t) (some s) =
            defaultReduce op (.Tensor td t) (some s) := by
          intro s
          simp [reduceF, ht]
        exact (default_case_chain op _ A B (h1 A) (h1 B)).trans
          (h1 (A ∪ B)).symm
  | op, .Variable n s, A, B =>
      (default_case_chain op _ A B (by simp [reduceF]) (by simp [reduceF])).trans
        (by simp [reduceF])
  | op, .Number z, A, B =>
      (default_case_chain op _ A B (by simp [reduceF]) (by simp [reduceF])).trans
        (by simp [reduceF])
  | op, .Unary o a, A, B =>
      (default_case_chain op _ A B (by simp [reduceF]) (by simp [reduceF])).trans
        (by simp [reduceF])
  | op, .Binary o l r, A, B =>
      (default_case_chain op _ A B (by simp [reduceF]) (by simp [reduceF])).trans
        (by simp [reduceF])
  | op, .Finitary o os, A, B =>
      (default_case_chain op _ A B (by simp [reduceF]) (by simp [reduceF])).trans
        (by simp [reduceF])
  | op, .Substitution a su, A, B =>
      (default_case_chain op _ A B (by simp [reduceF]) (by simp [reduceF])).trans
        (by simp [reduceF])

theorem sameOpNested_reduction (o : Op) (a : Funsor) (rd : Finset String) :
    sameOpNested (.Reduction o a rd) = nestedWithOp a o := by
  cases a <;> rfl

theorem defaultReduce_noNest (op : Op) (x : Funsor) (ds : Option (Finset String))
    (y : Funsor) (hx : nestedWithOp x op = false)
    (hself : sameOpNested x = false) (h : defaultReduce op x ds = some y) :
    sameOpNested y = false := by
  unfold defaultReduce at h
  split at h
  · cases h
    exact hself
  · cases h
    rw [sameOpNested_reduction]
    exact hx

theorem reduceF_noNest : ∀ (op : Op) (x : Funsor) (ds : Option (Finset String))
    (y : Funsor), sameOpNested (stripAlign x) = false →
    reduceF op x ds = some y → sameOpNested y = false
  | op, .Align a d s, ds, y, hx, h => by
      rw [show stripAlign (.Align a d s) = stripAlign a from rfl] at hx
      exact reduceF_noNest op a ds y hx h
  | op, .Reduction op2 a rd, ds, y, hx, h => by
      rw [show stripAlign (.Reduction op2 a rd) = .Reduction op2 a rd from rfl,
        sameOpNested_reduction] at hx
      by_cases hop : op = op2
      · subst hop
        rw [show reduceF op (.Reduction op a rd) ds =
            some (.Reduction op a
              (rd ∪ interDims (.Reduction op a rd) ds)) from by
          simp [reduceF]] at h
        cases h
        rw [sameOpNested_reduction]
        exact hx
      · rw [show reduceF op (.Reduction op2 a rd) ds =
            defaultReduce op (.Reduction op2 a rd) ds from by
          simp [reduceF, hop]] at h
        refine defaultReduce_noNest op _ ds y ?_ ?_ h
        · rw [show nestedWithOp (.Reduction op2 a rd) op = (op == op2) from
            rfl, beq_eq_false_iff_ne]
          exact hop
        · rw [sameOpNested_reduction]
          exact hx
  | op, .Tensor td t, ds, y, hx, h => by
      by_cases ht : reduceOpToTorch op
      · rw [show reduceF op (.Tensor td t) ds =
            (if interDims (.Tensor td t) ds = ∅ then some (.Tensor td t)
              else none) from by simp [reduceF, ht]] at h
        split at h
        · cases h
          rfl
        · cases h
      · rw [show reduceF op (.Tensor td t) ds =
            defaultReduce op (.Tensor td t) ds from by simp [reduceF, ht]] at h
        exact defaultReduce_noNest op (.Tensor td t) ds y rfl rfl h
  | op, .Variable n s, ds, y, hx, h =>
      defaultReduce_noNest op (.Variable n s) ds y rfl rfl
        (by simpa [reduceF] using h)
  | op, .Number z, ds, y, hx, h =>
      defaultReduce_noNest op (.Number z) ds y rfl rfl
        (by simpa [reduceF] using h)
  | op, .Unary o a, ds, y, hx, h =>
      defaultReduce_noNest op (.Unary o a) ds y rfl rfl
        (by simpa [reduceF] using h)
  | op, .Binary o l r, ds, y, hx, h =>
      defaultReduce_noNest op (.Binary o l r) ds y rfl rfl
        (by simpa [reduceF] using h)
  | op, .Finitary o os, ds, y, hx, h =>
      defaultReduce_noNest op (.Finitary o os) ds y rfl rfl
        (by simpa [reduceF] using h)
  | op, .Substitution a su, ds, y, hx, h =>
      defaultReduce_noNest op (.Substitution a su) ds y rfl rfl
        (by simpa [reduceF] using h)

/-- C3.  For every funsor `x`, op, and dimension sets `A`, `B` (disjoint or
overlapping), `x.reduce(op, A).reduce(op, B)` yields the same term as
`x.reduce(op, A ∪ B)`, and reduction chains over the same op are fused
eagerly: `reduce` never returns a `Reduction` whose argument is a `Reduction`
over the same op (given the input is not already such a directly-constructed
nested chain under its `Align` views). -/
theorem c3_reduce_fusion (op : Op) (x : Funsor) (A B : Finset String) :
    ((reduceF op x (some A)).bind (fun y => reduceF op y (some B)) =
        reduceF op x (some (A ∪ B))) ∧
      (sameOpNested (stripAlign x) = false →
        ∀ y, reduceF op x (some A) = some y → sameOpNested y = false) :=
  ⟨reduceF_chain op x A B,
   fun hx y hy => reduceF_noNest op x (some A) y hx hy⟩

/-- Witness for C3 at a concrete term, discharging the no-nesting
hypothesis. -/
theorem c3_reduce_fusion_witness :
    ((reduceF addOp (.Variable ("w") (.nat 2)) (some ∅)).bind
          (fun y => reduceF addOp y (some ∅)) =
        reduceF addOp (.Variable ("w") (.nat 2)) (some (∅ ∪ ∅))) ∧
      sameOpNested (Funsor.Variable ("w") (.nat 2)) = false :=
  ⟨(c3_reduce_fusion addOp (.Variable ("w") (.nat 2)) ∅ ∅).1,
   (c3_reduce_fusion addOp (.Variable ("w") (.nat 2)) ∅ ∅).2 rfl
      (.Variable ("w") (.nat 2)) (by simp [reduceF, defaultReduce])⟩

/-- C10 counterexample.  `alignEx` is an `Align` node; `{"a"}` is disjoint
from its dims (which are `["b"]`), yet `reduce` does not return the node
itself: `Align.reduce` delegates to the underlying argument, which still has
dim `"a"` and so wraps itself in a `Reduction`. -/
theorem c10_reduce_disjoint_counterexample :
    ({"a"} : Finset String) ∩ dimsSet alignEx = ∅ ∧
      reduceF negOp alignEx (some {"a"}) ≠ some alignEx := by
  constructor
  · rw [show dimsSet alignEx = ({"b"} : Finset String) from by
      simp [alignEx, dimsSet, dims]]
    decide
  · intro h
    rw [show reduceF negOp alignEx (some {"a"}) =
        defaultReduce negOp (.Variable ("a") (.nat 2)) (some {"a"}) from by
      simp [alignEx, reduceF]] at h
    simp only [defaultReduce, interDims_some] at h
    rw [show dimsSet (Funsor.Variable ("a") (.nat 2)) = ({"a"} : Finset String)
        from by simp [dimsSet], Finset.inter_self,
      if_neg (Finset.singleton_ne_empty ("a"))] at h
    simp only [alignEx, Option.some.injEq] at h
    exact Funsor.noConfusion h

/-- C10 amended.  For every funsor `x` that is not an `Align` view, reducing
over a dim set whose intersection with `x.dims` is empty returns `x` itself
(the canonical instance, by interning); an `Align` node instead delegates to
and returns (a reduction of) its argument. -/
theorem c10_reduce_disjoint_identity (op : Op) (x : Funsor) (D : Finset String)
    (hx : isAlign x = false) (hD : D ∩ dimsSet x = ∅) :
    reduceF op x (some D) = some x := by
  cases x with
  | Align a d s => simp [isAlign] at hx
  | Reduction op2 a rd =>
      by_cases hop : op = op2
      · subst hop
        rw [reduceF_same_op]
        rw [dimsSet_reduction] at hD
        rw [hD, Finset.union_empty]
      · simp [reduceF, hop, defaultReduce, hD]
  | Tensor td t =>
      by_cases ht : reduceOpToTorch op
      · simp [reduceF, ht, hD]
      · simp [reduceF, ht, defaultReduce, hD]
  | Variable n s => simp [reduceF, defaultReduce, hD]
  | Number z => simp [reduceF, defaultReduce, hD]
  | Unary o a => simp [reduceF, defaultReduce, hD]
  | Binary o l r => simp [reduceF, defaultReduce, hD]
  | Finitary o os => simp [reduceF, defaultReduce, hD]
  | Substitution a su => simp [reduceF, defaultReduce, hD]

/-- Witness for the amended C10 at a concrete non-`Align` term. -/
theorem c10_reduce_disjoint_identity_witness :
    isAlign (Funsor.Variable ("i") (.nat 2)) = false ∧
      ({"z"} : Finset String) ∩ dimsSet (Funsor.Variable ("i") (.nat 2)) = ∅ ∧
      reduceF addOp (.Variable ("i") (.nat 2)) (some {"z"}) =
        some (.Variable ("i") (.nat 2)) := by
  have h2 : ({"z"} : Finset String) ∩ dimsSet (Funsor.Variable ("i") (.nat 2)) =
      ∅ := by
    rw [show dimsSet (Funsor.Variable ("i") (.nat 2)) = ({"i"} : Finset String)
      from by simp [dimsSet]]
    decide
  exact ⟨rfl, h2, c10_reduce_disjoint_identity addOp _ _ rfl h2⟩

theorem lookupC_append_of_some (c : List (ConsKey × Nat)) (e : ConsKey × Nat)
    (k : ConsKey) (i : Nat) (h : lookupC c k = some i) :
    lookupC (c ++ [e]) k = some i := by
  unfold lookupC at h ⊢
  rw [List.find?_append]
  cases hf : c.find? (fun e => e.1 == k) with
  | none => rw [hf] at h; cases h
  | some v => rw [hf] at h; simp [hf, h]

theorem consCall_hit (k : ConsKey) (s : ConsState) (i : Nat)
    (h : lookupC s.cache k = some i) : consCall k s = (i, s) := by
  unfold consCall
  rw [h]

theorem consCall_miss (k : ConsKey) (s : ConsState)
    (h : lookupC s.cache k = none) :
    consCall k s = (s.next, ⟨s.cache ++ [(k, s.next)], s.next + 1⟩) := by
  unfold consCall
  rw [h]

theorem consCall_lookup (k : ConsKey) (s : ConsState) :
    lookupC (consCall k s).2.cache k = some (consCall k s).1 := by
  cases h : lookupC s.cache k with
  | some i =>
      rw [consCall_hit k s i h]
      exact h
  | none =>
      rw [consCall_miss k s h]
      unfold lookupC at h ⊢
      rw [List.find?_append]
      cases hf : s.cache.find? (fun e => e.1 == k) with
      | some v => rw [hf] at h; simp at h
      | none => simp [List.find?]

theorem consCall_preserves (k k' : ConsKey) (s : ConsState) (i : Nat)
    (h : lookupC s.cache k = some i) :
    lookupC (consCall k' s).2.cache k = some i := by
  unfold consCall
  cases h' : lookupC s.cache k' with
  | some j => exact h
  | none => exact lookupC_append_of_some _ _ _ _ h

theorem runCalls_preserves (ks : List ConsKey) (k : ConsKey) (s : ConsState)
    (i : Nat) (h : lookupC s.cache k = some i) :
    lookupC (runCalls ks s).cache k = some i := by
  induction ks generalizing s with
  | nil => exact h
  | cons k' ks ih =>
      exact ih (consCall k' s).2 (consCall_preserves k k' s i h)

/-- C4.  Construction is interned: a second construction with a
structurally-equal canonical key — immediately, or after any number of
constructions from independent call sites — returns the identical instance,
and the immediate repeat leaves the cache unchanged (idempotence). -/
theorem c4_cons_hashing_interning (s : ConsState) (k : ConsKey)
    (ks : List ConsKey) :
    (consCall k (consCall k s).2).1 = (consCall k s).1 ∧
      (consCall k (consCall k s).2).2 = (consCall k s).2 ∧
      (consCall k (runCalls ks (consCall k s).2)).1 = (consCall k s).1 := by
  refine ⟨?_, ?_, ?_⟩
  · rw [consCall_hit k _ _ (consCall_lookup k s)]
  · rw [consCall_hit k _ _ (consCall_lookup k s)]
  · rw [consCall_hit k _ _
      (runCalls_preserves ks k (consCall k s).2 (consCall k s).1
        (consCall_lookup k s))]

theorem isErr_ite {α : Type} (c : Prop) [Decidable c] (e1 e2 : PyErr) :
    isErr (if c then (.error e1 : Except PyErr α) else .error e2) = true := by
  split <;> rfl

/-- C9 counterexample.  `oneElemTensor` is not zero-dimensional (its shape is
`(1,)`), yet `bool()` and `.item()` both succeed on it, because
`Tensor.__bool__`/`Tensor.item` delegate to torch, which accepts any
one-element tensor. -/
theorem c9_scalar_coercion_counterexample :
    shape oneElemTensor ≠ [] ∧ funsorBool oneElemTensor = .ok true ∧
      funsorItem oneElemTensor = .ok 5 := by
  refine ⟨?_, rfl, rfl⟩
  rw [show shape oneElemTensor = [Size.nat 1] from by
    simp [oneElemTensor, shape, schema]]
  simp

/-- C9 amended.  Coercing a non-zero-dimensional term to a bool or scalar is
rejected for every variant except `Tensor`: a `Tensor` delegates to the
backend, which rejects exactly when the element count differs from one, so a
non-scalar one-element `Tensor` is coerced successfully. -/
theorem c9_scalar_coercion_amended (x : Funsor) (ds : List String) (t : TorchT)
    (hs : shape x ≠ []) (hx : isTensorF x = false) (ht : torchNumel t ≠ 1) :
    (isErr (funsorBool x) = true ∧ isErr (funsorItem x) = true) ∧
      (isErr (funsorBool (.Tensor ds t)) = true ∧
        isErr (funsorItem (.Tensor ds t)) = true) := by
  constructor
  · cases x with
    | Tensor ds' t' => simp [isTensorF] at hx
    | Number z => simp [shape, schema] at hs
    | Variable n s =>
        constructor <;> simp only [funsorBool, funsorItem, isErr_ite]
    | Unary o a =>
        constructor <;> simp only [funsorBool, funsorItem, isErr_ite]
    | Binary o l r =>
        constructor <;> simp only [funsorBool, funsorItem, isErr_ite]
    | Finitary o os =>
        constructor <;> simp only [funsorBool, funsorItem, isErr_ite]
    | Reduction o a rd =>
        constructor <;> simp only [funsorBool, funsorItem, isErr_ite]
    | Substitution a su =>
        constructor <;> simp only [funsorBool, funsorItem, isErr_ite]
    | Align a d sh =>
        constructor <;> simp only [funsorBool, funsorItem, isErr_ite]
  · unfold torchNumel at ht
    cases hd : t.data with
    | nil => constructor <;> simp [funsorBool, funsorItem, torchBool, torchItem, hd, isErr]
    | cons v rest =>
        cases rest with
        | nil => rw [hd] at ht; simp at ht
        | cons w r2 =>
            constructor <;>
              simp [funsorBool, funsorItem, torchBool, torchItem, hd, isErr]

/-- Witness for the amended C9 at concrete inputs. -/
theorem c9_scalar_coercion_amended_witness :
    shape (Funsor.Variable ("i") (.nat 2)) ≠ [] ∧
      isTensorF (Funsor.Variable ("i") (.nat 2)) = false ∧
      torchNumel ⟨[2], [1, 2]⟩ ≠ 1 ∧
      isErr (funsorBool (.Variable ("i") (.nat 2))) = true ∧
      isErr (funsorItem (.Variable ("i") (.nat 2))) = true ∧
      isErr (funsorBool (.Tensor ["i"] ⟨[2], [1, 2]⟩)) = true ∧
      isErr (funsorItem (.Tensor ["i"] ⟨[2], [1, 2]⟩)) = true := by
  have hs : shape (Funsor.Variable ("i") (.nat 2)) ≠ [] := by
    rw [show shape (Funsor.Variable ("i") (.nat 2)) = [Size.nat 2] from by
      simp [shape, schema]]
    simp
  have h := c9_scalar_coercion_amended (.Variable ("i") (.nat 2)) ["i"]
    ⟨[2], [1, 2]⟩ hs rfl (by decide)
  exact ⟨hs, rfl, by decide, h.1.1, h.1.2, h.2.1, h.2.2⟩

/-- C5.  The `Unary` branch of `eval` crashes outright (it reads the
nonexistent attribute `x.v`), and on `Substitution` chains the native
recursion depth of `eval` grows linearly with the nesting depth — it is not
bounded by a constant independent of expression depth. -/
theorem c5_eval_unary_crash_and_linear_depth :
    evalOk (.Unary negOp (.Number 1)) = false ∧
      (∀ n, evalDepth (subChain n) = n + 1) := by
  have hdepth : ∀ n, evalDepth (subChain n) = n + 1 := by
    intro n
    induction n with
    | zero => rfl
    | succ m ih =>
        rw [show subChain (m + 1) =
          .Substitution (subChain m) [("i", .Variable ("i") (.nat 2))] from rfl]
        rw [show evalDepth (.Substitution (subChain m)
            [("i", .Variable ("i") (.nat 2))]) =
          1 + max (evalDepth (subChain m))
            (evalDepthSubs [("i", .Variable ("i") (.nat 2))]) from by
          rw [evalDepth]]
        rw [ih]
        rw [show evalDepthSubs [("i", .Variable ("i") (.nat 2))] = 1 from by
          rw [evalDepthSubs, evalDepthSubs, evalDepth]
          omega]
        omega
  exact ⟨rfl, hdepth⟩

/-- C8 counterexample.  A step failing *during the drain* propagates (no
result), but the remaining work list is not discarded: the second scheduled
step stays in place, contradicting the claim that any failing step causes
the entire pending work list and queues to be discarded immediately. -/
theorem c8_step_failure_counterexample :
    (trampolineExit false stuckState).2 = none ∧
      (trampolineExit false stuckState).1.schedule = [(.const 7, 0, 0)] ∧
      (trampolineExit false stuckState).1 ≠ ⟨[], [], []⟩ := by
  refine ⟨rfl, rfl, ?_⟩
  intro h
  have h2 : (trampolineExit false stuckState).1.schedule = [] := by rw [h]
  rw [show (trampolineExit false stuckState).1.schedule =
    [(.const 7, 0, 0)] from rfl] at h2
  cases h2

/-- C8 amended.  When the evaluation *body* fails, `__exit__` discards the
entire work list and both queues and propagates; a step failing during the
drain also propagates and never yields a (partial) result, but leaves the
remaining entries in place; and a successful drain leaves exactly the empty
state behind while returning the single result. -/
theorem c8_exit_discard_amended (st : TState) :
    trampolineExit true st = (⟨[], [], []⟩, none) ∧
      (∀ v, (trampolineExit false st).2 = some v →
        (trampolineExit false st).1 = ⟨[], [], []⟩) := by
  constructor
  · rfl
  · have key : ∀ (sch : List (FnCode × Nat × Nat)) (args : List Nat)
        (kwargs : List (String × Nat)) (v : Nat),
        (drain sch args kwargs).2 = some v →
        (drain sch args kwargs).1 = ⟨[], [], []⟩ := by
      intro sch
      induction sch with
      | nil =>
          intro args kwargs v h
          match args with
          | [] => cases h
          | w :: rest =>
              rw [drain] at h ⊢
              by_cases hq : rest = [] ∧ kwargs = []
              · rw [if_pos hq] at h ⊢
              · rw [if_neg hq] at h
                cases h
      | cons e rest ih =>
          intro args kwargs v h
          match e with
          | (fn, na, nk) =>
              rw [drain] at h ⊢
              by_cases h1 : na ≤ args.length
              · rw [if_pos h1] at h ⊢
                by_cases h2 : nk ≤ kwargs.length
                · rw [if_pos h2] at h ⊢
                  cases hap : fn.apply (args.take na) (kwargs.take nk) with
                  | some w =>
                      rw [hap] at h
                      exact ih _ _ v h
                  | none =>
                      rw [hap] at h
                      simp at h
                · rw [if_neg h2] at h; cases h
              · rw [if_neg h1] at h; cases h
    intro v h
    exact key st.schedule st.argsQueue st.kwargsQueue v h

/-- Witness for the amended C8: a successful drain at a concrete state. -/
theorem c8_exit_discard_amended_witness :
    trampolineExit true stuckState = (⟨[], [], []⟩, none) ∧
      (trampolineExit false ⟨[(.const 7, 0, 0)], [], []⟩).2 = some 7 ∧
      (trampolineExit false ⟨[(.const 7, 0, 0)], [], []⟩).1 = ⟨[], [], []⟩ :=
  ⟨(c8_exit_discard_amended stuckState).1, rfl,
   (c8_exit_discard_amended ⟨[(.const 7, 0, 0)], [], []⟩).2 7 rfl⟩

/-- C7.  The generic lazy handlers never return a node: for every pair of
operands and every set of dims to eliminate, `Contract.__init__`'s
`assert dim in lhs.dims and dim in rhs.dims` fails, because `dim` is the
frozenset of dims and a frozenset is never equal to a dim name.  The claim's
promised lazy node (with schema = union of operand schemas minus the
eliminated dims) is unreachable. -/
theorem c7_generic_contract_always_raises (lhs rhs : Funsor)
    (rd : Finset String) :
    sumproductGeneric lhs rhs rd = none ∧
      logsumproductexpGeneric lhs rhs rd = none := by
  constructor <;>
    simp [sumproductGeneric, logsumproductexpGeneric, contractInit, dimArgMem]

theorem isReductionF_not_case1 (t : Funsor) (h : isReductionF t = true) :
    (isFinitaryF t || isGround t) = false := by
  cases t <;> simp_all [isReductionF, isFinitaryF, isGround]

theorem case1_not_isReductionF (t : Funsor)
    (h : (isFinitaryF t || isGround t) = true) : isReductionF t = false := by
  cases t <;> simp_all [isReductionF, isFinitaryF, isGround]

/-- C6.  For every `Finitary` whose operands mix `Reduction` nodes with
ground/`Finitary` nodes, the canonicalize stage raises
`NotImplementedError` instead of silently picking one of the rewrite
cases. -/
theorem c6_deoptimize_mixed_case_fails (op : Op) (operands : List Funsor)
    (h1 : operands.any isReductionF = true)
    (h2 : operands.any (fun t => isFinitaryF t || isGround t) = true) :
    deoptimizeFinitary op operands = .error mixedCaseMsg := by
  obtain ⟨t1, ht1, hred⟩ := List.any_eq_true.mp h1
  obtain ⟨t2, ht2, hcase1⟩ := List.any_eq_true.mp h2
  have hb1 : operands.all (fun t => isFinitaryF t || isGround t) = false := by
    rw [List.all_eq_false]
    exact ⟨t1, ht1, by simp [isReductionF_not_case1 t1 hred]⟩
  have hb2 : operands.all isReductionF = false := by
    rw [List.all_eq_false]
    exact ⟨t2, ht2, by simp [case1_not_isReductionF t2 hcase1]⟩
  have hb3 : operands.all (fun t => !(isReductionF t || isFinitaryF t)) =
      false := by
    rw [List.all_eq_false]
    refine ⟨t1, ht1, ?_⟩
    simp [hred]
  simp only [deoptimizeFinitary, hb1, hb2, hb3, Bool.false_eq_true, if_false]

/-- Witness for C6 at a concrete mixed operand list. -/
theorem c6_deoptimize_mixed_case_fails_witness :
    ([Funsor.Reduction 0 (.Number 1) ∅, Funsor.Number 2].any isReductionF
        = true) ∧
      ([Funsor.Reduction 0 (.Number 1) ∅, Funsor.Number 2].any
          (fun t => isFinitaryF t || isGround t) = true) ∧
      deoptimizeFinitary 0 [Funsor.Reduction 0 (.Number 1) ∅, Funsor.Number 2]
        = .error mixedCaseMsg :=
  ⟨rfl, rfl,
   c6_deoptimize_mixed_case_fails 0 _ rfl rfl⟩

theorem cGet_cAdd (c : Counter) (k k2 : CKey) (n : Int) :
    cGet (cAdd c k n) k2 = if k2 = k then cGet c k + n else cGet c k2 := rfl

theorem cGet_subTuples_str (c : Counter) (ds : List String) (d : String) :
    cGet (subTuples c ds) (.str d) = cGet c (.str d) := by
  induction ds generalizing c with
  | nil => rfl
  | cons x xs ih =>
      rw [show subTuples c (x :: xs) =
        subTuples (cAdd c (.pair x 1) (-1)) xs from rfl, ih]
      simp [cGet, cAdd]

theorem cGet_strFold (c : Counter) (L : List String) (d : String) :
    cGet (L.foldl (fun c2 x => cAdd c2 (.str x) 1) c) (.str d) =
      cGet c (.str d) + (L.count d : Int) := by
  induction L generalizing c with
  | nil => simp
  | cons x xs ih =>
      rw [List.foldl_cons, ih]
      by_cases h : d = x
      · subst h
        simp only [cGet, cAdd, if_pos rfl, List.count_cons, beq_self_eq_true,
          if_true]
        push_cast
        ring
      · have hx : CKey.str d ≠ CKey.str x := by
          intro hc
          exact h (CKey.str.inj hc)
        simp only [cGet, cAdd, if_neg hx, List.count_cons]
        have : (x == d) = false := by
          rw [beq_eq_false_iff_ne]
          exact fun hc => h hc.symm
        rw [this]
        push_cast
        ring

theorem cGet_updOne (c : Counter) (o : Funsor) (d : String) :
    cGet (updOne c o) (.str d) =
      cGet c (.str d) + (if d ∈ dimsSet o then 1 else 0) := by
  rw [show updOne c o =
    ((dims o).dedup).foldl (fun c2 x => cAdd c2 (.str x) 1) c from rfl]
  rw [cGet_strFold, List.count_dedup]
  by_cases h : d ∈ dims o
  · have h2 : d ∈ dimsSet o := by
      rw [dimsSet, List.mem_toFinset]
      exact h
    simp [h, h2]
  · have h2 : d ∉ dimsSet o := by
      rw [dimsSet, List.mem_toFinset]
      exact h
    simp [h, h2]

theorem cGet_initCounter (operands : List Funsor) (d : String) :
    cGet (initCounter operands) (.str d) = (occCount operands d : Int) := by
  have key : ∀ c : Counter, cGet (operands.foldl updOne c) (.str d) =
      cGet c (.str d) + (occCount operands d : Int) := by
    induction operands with
    | nil => intro c; simp [occCount]
    | cons o os ih =>
        intro c
        rw [List.foldl_cons, ih, cGet_updOne]
        rw [show occCount (o :: os) d =
          occCount os d + (if d ∈ dimsSet o then 1 else 0) from by
          rw [occCount, occCount, List.countP_cons]
          simp]
        push_cast
        by_cases h : d ∈ dimsSet o <;> simp [h]
        ring
  rw [initCounter, key]
  simp [cGet]

theorem mem_dimsUnion (d : String) (l : List Funsor) :
    d ∈ dimsUnion l ↔ ∃ o ∈ l, d ∈ dimsSet o := by
  induction l with
  | nil => simp [dimsUnion]
  | cons o os ih => simp [dimsUnion, ih]

theorem initCounter_pos_iff (operands : List Funsor) (d : String) :
    0 < cGet (initCounter operands) (.str d) ↔ d ∈ dimsUnion operands := by
  rw [cGet_initCounter, mem_dimsUnion, Int.natCast_pos, occCount,
    List.countP_pos_iff]
  simp

/-! Schema-key lemmas for `Finitary` pairs. -/

theorem updateSchema_nil (s : Schema) : updateSchema [] s = s := by
  simp [updateSchema, lookupS, List.find?]

theorem lookupS_ne_none_mem (s : Schema) (k : String)
    (h : ¬ lookupS s k = none) : k ∈ s.map Prod.fst := by
  unfold lookupS at h
  cases hf : s.find? (fun kv => kv.1 == k) with
  | none => rw [hf] at h; simp at h
  | some kv =>
      have hm := List.mem_of_find?_eq_some hf
      have hp := List.find?_some hf
      rw [beq_iff_eq] at hp
      exact List.mem_map.mpr ⟨kv, hm, hp⟩

theorem lookupS_eq_none_of_not_mem (s : Schema) (k : String)
    (h : k ∉ s.map Prod.fst) : lookupS s k = none := by
  unfold lookupS
  rw [List.find?_eq_none.mpr]
  · rfl
  · intro kv hkv hbeq
    rw [beq_iff_eq] at hbeq
    exact h (List.mem_map.mpr ⟨kv, hkv, hbeq⟩)

theorem keys_updateSchema (s1 s2 : Schema) :
    ((updateSchema s1 s2).map Prod.fst).toFinset =
      (s1.map Prod.fst).toFinset ∪ (s2.map Prod.fst).toFinset := by
  have hsplit : (updateSchema s1 s2).map Prod.fst = s1.map Prod.fst ++
      (s2.filter (fun kv => lookupS s1 kv.1 == none)).map Prod.fst := by
    rw [updateSchema, List.map_append, List.map_map]
    rfl
  ext d
  rw [hsplit]
  simp only [List.toFinset_append, Finset.mem_union, List.mem_toFinset,
    List.mem_map, List.mem_filter]
  constructor
  · rintro (h1 | ⟨kv, ⟨hkv, _⟩, rfl⟩)
    · exact Or.inl h1
    · exact Or.inr ⟨kv, hkv, rfl⟩
  · rintro (h1 | ⟨kv, hkv, rfl⟩)
    · exact Or.inl h1
    · by_cases hmem : kv.1 ∈ s1.map Prod.fst
      · exact Or.inl (by simpa [List.mem_map] using hmem)
      · refine Or.inr ⟨kv, ⟨hkv, ?_⟩, rfl⟩
        rw [lookupS_eq_none_of_not_mem s1 kv.1 hmem]
        rfl

theorem dimsSet_finitary_pair (fop : Op) (x y : Funsor) :
    dimsSet (.Finitary fop [x, y]) = dimsSet x ∪ dimsSet y := by
  rw [dimsSet, dims, schema_finitary]
  simp only [schemaMany]
  rw [updateSchema_nil, keys_updateSchema]
  rfl

/-- Splitting a list at an index, together with the effect of `eraseIdx` and
`set` there. -/
theorem split_at {α : Type} : ∀ (l : List α) (i : Nat), i < l.length →
    ∃ l1 y l2, l = l1 ++ y :: l2 ∧ l1.length = i ∧ l[i]? = some y ∧
      l.eraseIdx i = l1 ++ l2 ∧ ∀ x, l.set i x = l1 ++ x :: l2
  | [], i, h => absurd h (by simp)
  | c :: cs, 0, _ => ⟨[], c, cs, rfl, rfl, by simp, rfl, fun _ => rfl⟩
  | c :: cs, i + 1, h => by
      obtain ⟨l1, y, l2, heq, hlen, hget, her, hs⟩ :=
        split_at cs i (by simpa using h)
      refine ⟨c :: l1, y, l2, by simp [heq], by simp [hlen], by simpa, ?_, ?_⟩
      · rw [show (c :: cs).eraseIdx (i + 1) = c :: cs.eraseIdx i from rfl, her]
        rfl
      · intro x
        rw [show (c :: cs).set (i + 1) x = c :: cs.set i x from rfl, hs x]
        rfl

theorem mem_aUnion (d : String) (l : List (Funsor × Finset Nat)) :
    d ∈ aUnion l ↔ ∃ x ∈ l, d ∈ dimsSet x.1 := by
  induction l with
  | nil => simp [aUnion]
  | cons o os ih => simp [aUnion, ih]

/-- Splitting at an index whose element is known. -/
theorem split_at_of_getElem {α : Type} (l : List α) (i : Nat) (y : α)
    (h : l[i]? = some y) :
    ∃ l1 l2, l = l1 ++ y :: l2 ∧ l1.length = i ∧
      l.eraseIdx i = l1 ++ l2 ∧ ∀ x, l.set i x = l1 ++ x :: l2 := by
  have hi : i < l.length := (List.getElem?_eq_some.mp h).1
  obtain ⟨L1, z, L2, heq, hlen, hz, her, hs⟩ := split_at l i hi
  rw [hz] at h
  have hzy : z = y := Option.some.inj h
  subst hzy
  exact ⟨L1, L2, heq, hlen, her, hs⟩

/-- Replacing the two combined operands by their pairwise node preserves the
union of the dim sets. -/
theorem aUnion_step (l : List (Funsor × Finset Nat)) (a b : Nat)
    (ta tb pe : Funsor × Finset Nat) (hab : a < b)
    (hta : l[a]? = some ta) (htb : l[b]? = some tb)
    (hpe : dimsSet pe.1 = dimsSet ta.1 ∪ dimsSet tb.1) :
    aUnion ((l.eraseIdx b).set a pe) = aUnion l := by
  obtain ⟨L1, L2, heq, hlen, her, _⟩ := split_at_of_getElem l b tb htb
  have ha1 : a < L1.length := by omega
  have hta2 : (L1 ++ L2)[a]? = some ta := by
    rw [List.getElem?_append_left ha1]
    rw [heq, List.getElem?_append_left ha1] at hta
    exact hta
  obtain ⟨M1, M2, heq2, hlen2, _, hset2⟩ := split_at_of_getElem (L1 ++ L2) a
    ta hta2
  rw [her, hset2 pe]
  ext d
  rw [mem_aUnion, mem_aUnion]
  have hmem_l : ∀ x, x ∈ l ↔ (x ∈ L1 ∨ x ∈ L2) ∨ x = tb := by
    intro x
    rw [heq]
    simp [List.mem_append, List.mem_cons]
    tauto
  have hmem_m : ∀ x, (x ∈ L1 ∨ x ∈ L2) ↔ (x ∈ M1 ∨ x ∈ M2) ∨ x = ta := by
    intro x
    rw [← List.mem_append, heq2]
    simp [List.mem_append, List.mem_cons]
    tauto
  constructor
  · rintro ⟨x, hx, hdx⟩
    rcases List.mem_append.mp hx with hx1 | hx2
    · refine ⟨x, ?_, hdx⟩
      rw [hmem_l]
      left
      rw [hmem_m]
      exact Or.inl (Or.inl hx1)
    · rcases List.mem_cons.mp hx2 with rfl | hx3
      · rw [hpe] at hdx
        rcases Finset.mem_union.mp hdx with h1 | h2
        · exact ⟨ta, List.getElem?_mem hta, h1⟩
        · exact ⟨tb, List.getElem?_mem htb, h2⟩
      · refine ⟨x, ?_, hdx⟩
        rw [hmem_l]
        left
        rw [hmem_m]
        exact Or.inl (Or.inr hx3)
  · rintro ⟨x, hx, hdx⟩
    rw [hmem_l] at hx
    have hpemem : pe ∈ M1 ++ pe :: M2 :=
      List.mem_append.mpr (Or.inr (List.mem_cons_self _ _))
    rcases hx with hx12 | rfl
    · rw [hmem_m] at hx12
      rcases hx12 with (h1 | h2) | rfl
      · exact ⟨x, List.mem_append.mpr (Or.inl h1), hdx⟩
      · exact ⟨x,
          List.mem_append.mpr (Or.inr (List.mem_cons_of_mem _ h2)), hdx⟩
      · exact ⟨pe, hpemem, by rw [hpe]; exact Finset.mem_union.mpr (Or.inl hdx)⟩
    · exact ⟨pe, hpemem, by rw [hpe]; exact Finset.mem_union.mpr (Or.inr hdx)⟩

theorem pathStep_spec (rop fop : Op) (D : Finset String)
    (ops : List (Funsor × Finset Nat)) (cnt : Counter) (a b : Nat)
    (st : StepOut) (h : pathStep rop fop D ops cnt a b = some st)
    (hInv : ∀ d ∈ aUnion ops, 1 ≤ cGet cnt (.str d)) :
    st.rd = ∅ ∧
      (∀ k, cGet st.cnt (.str k) = cGet cnt (.str k)) ∧
      (∃ ta tb, ops[a]? = some ta ∧ ops[b]? = some tb ∧
        dimsSet st.pe.1 = dimsSet ta.1 ∪ dimsSet tb.1 ∧
        st.ops = (ops.eraseIdx b).set a st.pe) ∧
      st.ops.length = ops.length - 1 := by
  unfold pathStep at h
  cases hta : ops[a]? with
  | none => rw [hta] at h; cases h
  | some ta =>
      cases htb : ops[b]? with
      | none =>
          simp only [hta, htb] at h
          cases h
      | some tb =>
          simp only [hta, htb] at h
          have hb : b < ops.length := (List.getElem?_eq_some.mp htb).1
          split at h
          case isFalse => cases h
          case isTrue hlt =>
            cases h
            dsimp only
            have hcnt2 : ∀ k, cGet (subTuples (subTuples cnt
                ((dims ta.1).dedup.filter (fun d => d ∈ D)))
                ((dims tb.1).dedup.filter (fun d => d ∈ D))) (.str k) =
                cGet cnt (.str k) := by
              intro k
              rw [cGet_subTuples_str, cGet_subTuples_str]
            have hrd : ((D ∩ (dimsSet ta.1 ∪ dimsSet tb.1)).filter
                (fun d => cGet (subTuples (subTuples cnt
                  ((dims ta.1).dedup.filter (fun d => d ∈ D)))
                  ((dims tb.1).dedup.filter (fun d => d ∈ D))) (.str d) = 0))
                = (∅ : Finset String) := by
              rw [Finset.filter_eq_empty_iff]
              intro d hd
              have hd2 : d ∈ dimsSet ta.1 ∪ dimsSet tb.1 :=
                (Finset.mem_inter.mp hd).2
              have hdu : d ∈ aUnion ops := by
                rw [mem_aUnion]
                rcases Finset.mem_union.mp hd2 with h1 | h2
                · exact ⟨ta, List.getElem?_mem hta, h1⟩
                · exact ⟨tb, List.getElem?_mem htb, h2⟩
              have h1 := hInv d hdu
              rw [hcnt2 d]
              omega
            refine ⟨hrd, hcnt2, ⟨ta, tb, rfl, rfl, ?_, rfl⟩, ?_⟩
            · dsimp only
              rw [dimsSet_reduction, hrd, Finset.sdiff_empty,
                dimsSet_finitary_pair]
            · dsimp only
              rw [List.length_set, List.length_eraseIdx, if_pos hb]

theorem pathStep_exists (rop fop : Op) (D : Finset String)
    (ops : List (Funsor × Finset Nat)) (cnt : Counter) (a b : Nat)
    (hab : a < b) (hb : b < ops.length) :
    ∃ st, pathStep rop fop D ops cnt a b = some st := by
  have ha : a < ops.length := lt_trans hab hb
  have hlen : a < (ops.eraseIdx b).length := by
    rw [List.length_eraseIdx, if_pos hb]
    omega
  cases hps : pathStep rop fop D ops cnt a b with
  | some st => exact ⟨st, rfl⟩
  | none =>
      exfalso
      unfold pathStep at hps
      rw [List.getElem?_eq_getElem ha, List.getElem?_eq_getElem hb] at hps
      simp [hlen] at hps

theorem step_inv_preserved (ops : List (Funsor × Finset Nat)) (cnt : Counter)
    (st : StepOut) (ta tb : Funsor × Finset Nat) (a b : Nat)
    (hcnt : ∀ k, cGet st.cnt (.str k) = cGet cnt (.str k))
    (hta : ops[a]? = some ta) (htb : ops[b]? = some tb)
    (hpe : dimsSet st.pe.1 = dimsSet ta.1 ∪ dimsSet tb.1)
    (hops : st.ops = (ops.eraseIdx b).set a st.pe)
    (hInv : ∀ d ∈ aUnion ops, 1 ≤ cGet cnt (.str d)) :
    ∀ d ∈ aUnion st.ops, 1 ≤ cGet st.cnt (.str d) := by
  intro d hd
  rw [hcnt d]
  apply hInv
  rw [mem_aUnion] at hd ⊢
  obtain ⟨x, hx, hdx⟩ := hd
  rw [hops] at hx
  rcases List.mem_or_eq_of_mem_set hx with hx2 | rfl
  · exact ⟨x, List.mem_of_mem_eraseIdx hx2, hdx⟩
  · rw [hpe] at hdx
    rcases Finset.mem_union.mp hdx with h1 | h2
    · exact ⟨ta, List.getElem?_mem hta, h1⟩
    · exact ⟨tb, List.getElem?_mem htb, h2⟩

theorem runPath_single (rop fop : Op) (D : Finset String) (a b : Nat)
    (ops : List (Funsor × Finset Nat)) (cnt : Counter) :
    runPath rop fop D [(a, b)] ops cnt =
      match pathStep rop fop D ops cnt a b with
      | none => none
      | some st => some ⟨st.ops, st.cnt, st.pe, [(st.rd, st.pe.2)]⟩ := rfl

theorem runPath_cons_cons (rop fop : Op) (D : Finset String) (a b : Nat)
    (p2 : Nat × Nat) (rest2 : List (Nat × Nat))
    (ops : List (Funsor × Finset Nat)) (cnt : Counter) :
    runPath rop fop D ((a, b) :: p2 :: rest2) ops cnt =
      match pathStep rop fop D ops cnt a b with
      | none => none
      | some st =>
          match runPath rop fop D (p2 :: rest2) st.ops st.cnt with
          | none => none
          | some r =>
              some ⟨r.ops, r.cnt, r.pe, (st.rd, st.pe.2) :: r.trace⟩ := rfl

theorem runPath_trace (rop fop : Op) (D : Finset String) :
    ∀ (path : List (Nat × Nat)) (ops : List (Funsor × Finset Nat))
      (cnt : Counter) (r : RunOut),
      runPath rop fop D path ops cnt = some r →
      (∀ d ∈ aUnion ops, 1 ≤ cGet cnt (.str d)) →
      (∀ e ∈ r.trace, e.1 = ∅) ∧
        (∀ k, cGet r.cnt (.str k) = cGet cnt (.str k))
  | [], _, _, _, h, _ => by cases h
  | [(a, b)], ops, cnt, r, h, hInv => by
      rw [runPath_single] at h
      cases hst : pathStep rop fop D ops cnt a b with
      | none => rw [hst] at h; cases h
      | some st =>
          simp only [hst] at h
          obtain ⟨hrd, hcnt, _, _⟩ :=
            pathStep_spec rop fop D ops cnt a b st hst hInv
          cases h
          refine ⟨?_, hcnt⟩
          intro e he
          rw [List.mem_singleton] at he
          rw [he]
          exact hrd
  | (a, b) :: p2 :: rest2, ops, cnt, r, h, hInv => by
      rw [runPath_cons_cons] at h
      cases hst : pathStep rop fop D ops cnt a b with
      | none => rw [hst] at h; cases h
      | some st =>
          simp only [hst] at h
          obtain ⟨hrd, hcnt, ⟨ta, tb, hta, htb, hpe, hops⟩, _⟩ :=
            pathStep_spec rop fop D ops cnt a b st hst hInv
          have hInv2 := step_inv_preserved ops cnt st ta tb a b hcnt hta htb
            hpe hops hInv
          cases hrun : runPath rop fop D (p2 :: rest2) st.ops st.cnt with
          | none => rw [hrun] at h; cases h
          | some r2 =>
              simp only [hrun] at h
              cases h
              obtain ⟨htr2, hcnt2⟩ := runPath_trace rop fop D (p2 :: rest2)
                st.ops st.cnt r2 hrun hInv2
              refine ⟨?_, fun k => (hcnt2 k).trans (hcnt k)⟩
              intro e he
              rcases List.mem_cons.mp he with rfl | he2
              · exact hrd
              · exact htr2 e he2

theorem runPath_complete (rop fop : Op) (D : Finset String) :
    ∀ (path : List (Nat × Nat)) (ops : List (Funsor × Finset Nat))
      (cnt : Counter),
      validPath ops.length path = true → path.length + 1 = ops.length →
      1 ≤ path.length →
      (∀ d ∈ aUnion ops, 1 ≤ cGet cnt (.str d)) →
      ∃ r, runPath rop fop D path ops cnt = some r ∧
        dimsSet r.pe.1 = aUnion ops ∧
        (∀ k, cGet r.cnt (.str k) = cGet cnt (.str k))
  | [], _, _, _, _, hp, _ => absurd hp (by simp)
  | [(a, b)], ops, cnt, hv, hc, _, hInv => by
      have hv2 := hv
      simp only [validPath, Bool.and_eq_true, decide_eq_true_eq] at hv2
      obtain ⟨⟨hab, hb⟩, _⟩ := hv2
      obtain ⟨st, hst⟩ := pathStep_exists rop fop D ops cnt a b hab hb
      obtain ⟨hrd, hcnt, ⟨ta, tb, hta, htb, hpe, hops⟩, hlenst⟩ :=
        pathStep_spec rop fop D ops cnt a b st hst hInv
      have hlen2 : ops.length = 2 := by
        simp only [List.length_cons, List.length_nil] at hc
        omega
      refine ⟨⟨st.ops, st.cnt, st.pe, [(st.rd, st.pe.2)]⟩, ?_, ?_,
        fun k => hcnt k⟩
      · rw [runPath_single, hst]
      · have ha0 : a = 0 := by omega
        have hb1 : b = 1 := by omega
        subst ha0
        subst hb1
        obtain ⟨x, y, rfl⟩ : ∃ x y, ops = [x, y] := by
          cases ops with
          | nil =>
              exfalso
              simp only [List.length_nil] at hlen2
              omega
          | cons x t =>
              cases t with
              | nil =>
                  exfalso
                  simp only [List.length_cons, List.length_nil] at hlen2
                  omega
              | cons y t2 =>
                  cases t2 with
                  | nil => exact ⟨x, y, rfl⟩
                  | cons z t3 =>
                      exfalso
                      simp only [List.length_cons] at hlen2
                      omega
        have hxa : ta = x := by
          have hx0 : ([x, y] : List (Funsor × Finset Nat))[0]? = some x := by
            simp
          rw [hx0] at hta
          exact (Option.some.inj hta).symm
        have hyb : tb = y := by
          have hy1 : ([x, y] : List (Funsor × Finset Nat))[1]? = some y := by
            simp
          rw [hy1] at htb
          exact (Option.some.inj htb).symm
        subst hxa
        subst hyb
        rw [hpe]
        simp [aUnion]
  | (a, b) :: p2 :: rest2, ops, cnt, hv, hc, _, hInv => by
      have hv2 := hv
      simp only [validPath, Bool.and_eq_true, decide_eq_true_eq] at hv2
      obtain ⟨⟨hab, hb⟩, hrest⟩ := hv2
      have hrest2 : validPath (ops.length - 1) (p2 :: rest2) = true := by
        simp only [validPath, Bool.and_eq_true, decide_eq_true_eq]
        exact hrest
      obtain ⟨st, hst⟩ := pathStep_exists rop fop D ops cnt a b hab hb
      obtain ⟨hrd, hcnt, ⟨ta, tb, hta, htb, hpe, hops⟩, hlenst⟩ :=
        pathStep_spec rop fop D ops cnt a b st hst hInv
      have hInv2 := step_inv_preserved ops cnt st ta tb a b hcnt hta htb
        hpe hops hInv
      obtain ⟨r2, hrun, hdims2, hcnt2⟩ :=
        runPath_complete rop fop D (p2 :: rest2) st.ops st.cnt
          (by rw [hlenst]; exact hrest2)
          (by
            rw [hlenst]
            simp only [List.length_cons] at hc ⊢
            omega)
          (by simp only [List.length_cons]; omega)
          hInv2
      refine ⟨⟨r2.ops, r2.cnt, r2.pe, (st.rd, st.pe.2) :: r2.trace⟩,
        ?_, ?_, ?_⟩
      · rw [runPath_cons_cons, hst]
        simp only [hrun]
      · dsimp only
        rw [hdims2, hops]
        exact aUnion_step ops a b ta tb st.pe hab hta htb hpe
      · intro k
        exact (hcnt2 k).trans (hcnt k)

theorem annotate_length (operands : List Funsor) :
    (annotate operands).length = operands.length := by
  simp [annotate]

theorem annotate_aUnion (operands : List Funsor) :
    aUnion (annotate operands) = dimsUnion operands := by
  have key : ∀ (n : Nat) (l : List Funsor),
      aUnion ((List.enumFrom n l).map
        (fun p => (p.2, ({p.1} : Finset Nat)))) = dimsUnion l := by
    intro n l
    induction l generalizing n with
    | nil => simp [aUnion, dimsUnion]
    | cons o os ih => simp [List.enumFrom_cons, aUnion, dimsUnion, ih]
  exact key 0 operands

theorem initInv (operands : List Funsor) :
    ∀ d ∈ aUnion (annotate operands),
      1 ≤ cGet (initCounter operands) (.str d) := by
  intro d hd
  rw [annotate_aUnion] at hd
  have := (initCounter_pos_iff operands d).mpr hd
  omega

/-- C1.  For every multi-operand `Reduction(op, Finitary(fop, operands), D)`
rewritten by `optimize_reduction` along a complete valid contraction path,
the rewrite succeeds, the combined pairwise tree `pe` still carries the
union of all operand dims, every dim of `D` occurring in some operand is
eliminated — here all of them in the single trailing `Reduction` (the
pairwise reduced sets are empty, see C2) — and the free-dimension set of
the result equals (union of operand dims) minus `D`. -/
theorem c1_optimizer_retires_dims (rop fop : Op) (operands : List Funsor)
    (D : Finset String) (path : List (Nat × Nat))
    (hv : validPath operands.length path = true)
    (hc : path.length + 1 = operands.length)
    (hn : 2 ≤ operands.length) :
    ∃ pe, optimizeReduction rop (.Finitary fop operands) D path =
        some (if D ∩ dimsUnion operands = ∅ then pe
          else .Reduction rop pe (D ∩ dimsUnion operands)) ∧
      dimsSet pe = dimsUnion operands ∧
      dimsSet (if D ∩ dimsUnion operands = ∅ then pe
        else .Reduction rop pe (D ∩ dimsUnion operands)) =
        dimsUnion operands \ D := by
  obtain ⟨ro, hrun, hdims, hcnt⟩ :=
    runPath_complete rop fop D path (annotate operands)
      (initCounter operands)
      (by rw [annotate_length]; exact hv)
      (by rw [annotate_length]; exact hc)
      (by omega)
      (initInv operands)
  have hdimspe : dimsSet ro.pe.1 = dimsUnion operands := by
    rw [hdims, annotate_aUnion]
  have hfr : D.filter (fun d => 0 < cGet ro.cnt (.str d)) =
      D ∩ dimsUnion operands := by
    ext d
    simp only [Finset.mem_filter, Finset.mem_inter]
    constructor
    · rintro ⟨hD, hpos⟩
      rw [hcnt d] at hpos
      exact ⟨hD, (initCounter_pos_iff operands d).mp hpos⟩
    · rintro ⟨hD, hmem⟩
      refine ⟨hD, ?_⟩
      rw [hcnt d]
      exact (initCounter_pos_iff operands d).mpr hmem
  have hres : optimizeReduction rop (.Finitary fop operands) D path =
      some (if D ∩ dimsUnion operands = ∅ then ro.pe.1
        else .Reduction rop ro.pe.1 (D ∩ dimsUnion operands)) := by
    simp only [optimizeReduction, hrun]
    rw [hfr]
  refine ⟨ro.pe.1, hres, hdimspe, ?_⟩
  by_cases hempty : D ∩ dimsUnion operands = ∅
  · rw [if_pos hempty, hdimspe]
    ext d
    simp only [Finset.mem_sdiff]
    constructor
    · intro hdm
      refine ⟨hdm, ?_⟩
      intro hdD
      have hin : d ∈ D ∩ dimsUnion operands :=
        Finset.mem_inter.mpr ⟨hdD, hdm⟩
      rw [hempty] at hin
      exact absurd hin (Finset.not_mem_empty d)
    · rintro ⟨hdm, _⟩
      exact hdm
  · rw [if_neg hempty, dimsSet_reduction, hdimspe]
    ext d
    simp only [Finset.mem_sdiff, Finset.mem_inter]
    tauto

/-- Witness for C1 at a concrete two-operand reduction. -/
theorem c1_optimizer_retires_dims_witness :
    validPath w1ops.length [(0, 1)] = true ∧
      ([(0, 1)] : List (Nat × Nat)).length + 1 = w1ops.length ∧
      2 ≤ w1ops.length ∧
      (∃ pe, optimizeReduction addOp (.Finitary mulOp w1ops) {"i"}
            [(0, 1)] =
          some (if ({"i"} : Finset String) ∩ dimsUnion w1ops = ∅ then pe
            else .Reduction addOp pe ({"i"} ∩ dimsUnion w1ops)) ∧
        dimsSet pe = dimsUnion w1ops ∧
        dimsSet (if ({"i"} : Finset String) ∩ dimsUnion w1ops = ∅ then pe
          else .Reduction addOp pe ({"i"} ∩ dimsUnion w1ops)) =
          dimsUnion w1ops \ {"i"}) :=
  ⟨by decide, by decide, by decide,
   c1_optimizer_retires_dims addOp mulOp w1ops {"i"} [(0, 1)]
     (by decide) (by decide) (by decide)⟩

/-- C2.  In the optimizer loop, a dim `d ∈ D` enters the reduced set of the
`Reduction` wrapping a pairwise combine step only once every original
operand whose dims mention `d` has been folded into that step or one of its
ancestors (the step's group of original indices); `d` is never reduced
earlier.  (In fact the mid-path reduced sets are always empty: the
`Counter.subtract` calls decrement `(d, 1)` tuple keys, so the dim-name
counters never reach zero.) -/
theorem c2_no_early_retirement (rop fop : Op) (operands : List Funsor)
    (D : Finset String) (path : List (Nat × Nat))
    (tr : List (Finset String × Finset Nat))
    (htr : optimizePathTrace rop fop D operands path = some tr)
    (e : Finset String × Finset Nat) (he : e ∈ tr) :
    e.1 ⊆ fullyFolded operands D e.2 := by
  unfold optimizePathTrace at htr
  cases hrun : runPath rop fop D path (annotate operands)
      (initCounter operands) with
  | none => rw [hrun] at htr; cases htr
  | some r =>
      rw [hrun] at htr
      have htr2 : tr = r.trace := (Option.some.inj htr).symm
      subst htr2
      obtain ⟨htrace, _⟩ := runPath_trace rop fop D path (annotate operands)
        (initCounter operands) r hrun (initInv operands)
      rw [htrace e he]
      exact Finset.empty_subset _

/-- Witness for C2 on a concrete optimizer run (one pairwise step folding
both operands; its reduced set is empty, its group is `{0, 1}`). -/
theorem c2_no_early_retirement_witness :
    optimizePathTrace addOp mulOp {"i"} w2ops [(0, 1)] =
        some [((∅ : Finset String), ({0, 1} : Finset Nat))] ∧
      ((∅ : Finset String), ({0, 1} : Finset Nat)) ∈
        [((∅ : Finset String), ({0, 1} : Finset Nat))] ∧
      (∅ : Finset String) ⊆ fullyFolded w2ops {"i"} {0, 1} := by
  have h1 : optimizePathTrace addOp mulOp {"i"} w2ops [(0, 1)] =
      some [((∅ : Finset String), ({0, 1} : Finset Nat))] := by decide
  have h2 : ((∅ : Finset String), ({0, 1} : Finset Nat)) ∈
      [((∅ : Finset String), ({0, 1} : Finset Nat))] :=
    List.mem_singleton.mpr rfl
  exact ⟨h1, h2,
    c2_no_early_retirement addOp mulOp w2ops {"i"} [(0, 1)] _ h1 _ h2⟩

end Funsors
